import Mathlib

/-!
Shallow embedding of the batched-fetch-with-rate-limit-retry core of the
`fetch-imusician-artist-data` command-line tool, together with proofs of the
behavioural properties claimed for it.

The embedded functions mirror, definition by definition:
  * lodash's `chunk`, `flatten` (as `List.flatten`) and `uniq`;
  * `chunkRequests` (the bounded-concurrency batch executor);
  * `retryAfterRateLimitApplied` (the 429 rate-limit retry wrapper);
  * `SpotifyClient.getArtists` / `SpotifyClient.getLatestAlbum` request shapes;
  * the orchestrating `main` (identifier extraction, dedup, chunks of 50,
    try/finally output writing).
-/

namespace FetchArtistData

/-- lodash `_.chunk(array, size)`: partition `l` into consecutive groups of
`n` elements, the last group possibly shorter; an empty array or a size of
zero yields no chunks. -/
def chunk : List α → Nat → List (List α)
  | [], _ => []
  | _ :: _, 0 => []
  | x :: xs, n + 1 => (x :: xs).take (n + 1) :: chunk ((x :: xs).drop (n + 1)) (n + 1)
termination_by l _ => l.length
decreasing_by
  simp only [List.length_drop, List.length_cons]
  omega

/-- JavaScript `array.map((value, index) => g value index)`, generalised over
the index `i` given to the first element. -/
def mapIdxAux (g : α → Nat → β) (i : Nat) : List α → List β
  | [] => []
  | x :: xs => g x i :: mapIdxAux g (i + 1) xs

/-- `chunkRequests(inputArray, requestFn, concurrentRequests)` from the source:
chunk the input, then for each chunk in order run `requestFn` on every element
with global index `i * concurrentRequests + index`, collecting each chunk's
results in element order (`Promise.all`) and flattening. -/
def chunkRequests (inputArray : List α) (requestFn : α → Nat → β)
    (concurrentRequests : Nat) : List β :=
  (mapIdxAux
    (fun ck i => mapIdxAux (fun v idx => requestFn v (i * concurrentRequests + idx)) 0 ck)
    0 (chunk inputArray concurrentRequests)).flatten

/-- lodash `_.uniq(array)`: keep the first occurrence of each element, in
order of first occurrence; `seen` carries the elements already emitted. -/
def uniqAux [DecidableEq α] (seen : List α) : List α → List α
  | [] => []
  | x :: xs => if x ∈ seen then uniqAux seen xs else x :: uniqAux (x :: seen) xs

/-- lodash `_.uniq(array)`. -/
def uniq [DecidableEq α] (l : List α) : List α := uniqAux [] l

/-- `Promise.all` result assembly under an explicit completion schedule: the
element operations of one group write their results into their own slot of
the result array, in the order `order` in which they complete. -/
def fillSlotsFrom (tasks : List β) : List Nat → List (Option β) → List (Option β)
  | [], arr => arr
  | s :: rest, arr =>
    fillSlotsFrom tasks rest
      (match tasks[s]? with
       | some v => arr.set s (some v)
       | none => arr)

/-- One group of `chunkRequests` under an explicit completion schedule:
`Promise.all` starts every element operation of the group, and each one
stores its result into its own slot when it completes; `order` lists the
slots in completion order. -/
def runGroupSched (tasks : List β) (order : List Nat) : List (Option β) :=
  fillSlotsFrom tasks order (List.replicate tasks.length none)

/-- `chunkRequests` under explicit per-group completion schedules
(`orders i` is the completion order of the slots of group `i`). -/
def chunkRequestsSched (inputArray : List α) (requestFn : α → Nat → β)
    (concurrentRequests : Nat) (orders : Nat → List Nat) : List (Option β) :=
  (mapIdxAux
    (fun ck i =>
      runGroupSched
        (mapIdxAux (fun v idx => requestFn v (i * concurrentRequests + idx)) 0 ck)
        (orders i))
    0 (chunk inputArray concurrentRequests)).flatten

/-- Events of one `chunkRequests` execution: `launch g s` starts the operation
in slot `s` of group `g` (the `.map` inside `Promise.all` starts every
operation of the group before any is awaited); `complete g s` is its
completion. -/
inductive BatchEv where
  | launch (group slot : Nat)
  | complete (group slot : Nat)
deriving DecidableEq

def isLaunch : BatchEv → Bool
  | .launch _ _ => true
  | .complete _ _ => false

def isComplete : BatchEv → Bool
  | .launch _ _ => false
  | .complete _ _ => true

/-- The event trace of one group of size `k`: all `k` operations are launched
in slot order, then they complete in the order given by `order`; only after
all completions does the enclosing loop continue. -/
def groupTrace (g k : Nat) (order : List Nat) : List BatchEv :=
  (List.range k).map (BatchEv.launch g) ++ order.map (BatchEv.complete g)

/-- The event trace of `chunkRequests`: groups are executed strictly one
after the other (`await Promise.all` inside the `for` loop). -/
def execTraceAux (orders : Nat → List Nat) : List (List α) → Nat → List BatchEv
  | [], _ => []
  | ck :: rest, g => groupTrace g ck.length (orders g) ++ execTraceAux orders rest (g + 1)

def execTrace (inputArray : List α) (c : Nat) (orders : Nat → List Nat) : List BatchEv :=
  execTraceAux orders (chunk inputArray c) 0

/-- The parts of an axios error response read by
`retryAfterRateLimitApplied`: the HTTP status and the `retry-after` response
header (`none` when the server did not send that header). -/
structure JsResponse where
  status : Nat
  retryAfter : Option String
deriving DecidableEq

/-- A JavaScript error as thrown by axios: a message and, for HTTP errors,
the response (`error.response` is `undefined` for non-HTTP failures). -/
structure JsError where
  message : String
  response : Option JsResponse
deriving DecidableEq

/-- Outcome of a JavaScript promise: resolved with a value or rejected with
an error. -/
inductive JsOutcome (T : Type) where
  | resolved (value : T)
  | rejected (error : JsError)
deriving DecidableEq

def digitsVal (cs : List Char) : Nat :=
  cs.foldl (fun a ch => a * 10 + (ch.toNat - 48)) 0

/-- JavaScript `parseInt(s, 10)`: skip leading whitespace, read an optional
sign and then a maximal run of decimal digits; `none` models the `NaN`
returned when no digits are found. -/
def jsParseInt (s : String) : Option Int :=
  let cs := s.toList.dropWhile (fun ch => ch.isWhitespace)
  match cs with
  | '-' :: rest =>
    let ds := rest.takeWhile (fun ch => ch.isDigit)
    if ds = [] then none else some (-(digitsVal ds : Int))
  | '+' :: rest =>
    let ds := rest.takeWhile (fun ch => ch.isDigit)
    if ds = [] then none else some ((digitsVal ds : Int))
  | _ =>
    let ds := cs.takeWhile (fun ch => ch.isDigit)
    if ds = [] then none else some ((digitsVal ds : Int))

/-- `TOO_MANY_REQUESTS` from the source. -/
def TOO_MANY_REQUESTS : Nat := 429

/-- `MAX_RETRIES` from the source. -/
def MAX_RETRIES : Nat := 10

/-- `retryAfterRateLimitApplied(innerFn, previousRetries)` from the source.
`innerFn` is modelled as a function from the number of invocations already
performed to the outcome of the next invocation (a mocked transport). The
second component of the result is the sequence of waits performed, each
entry the `retry-after` header as parsed by `parseInt` (in seconds; `none`
models the `NaN` produced by a missing or non-numeric header — the code
sleeps `secondsToWait * 1000` milliseconds without ever checking the parse
succeeded). -/
def retryAfterRateLimitApplied (innerFn : Nat → JsOutcome T)
    (previousRetries : Nat) : JsOutcome T × List (Option Int) :=
  match innerFn previousRetries with
  | .resolved value => (.resolved value, [])
  | .rejected error =>
    if h : error.response.map JsResponse.status ≠ some TOO_MANY_REQUESTS
        ∨ MAX_RETRIES ≤ previousRetries then
      (.rejected error, [])
    else
      let secondsToWait : Option Int :=
        (error.response.bind JsResponse.retryAfter).bind jsParseInt
      let next := retryAfterRateLimitApplied innerFn (previousRetries + 1)
      (next.1, secondsToWait :: next.2)
termination_by MAX_RETRIES - previousRetries
decreasing_by
  push_neg at h
  simp only [MAX_RETRIES] at *
  omega

/-- A top-level call: `previousRetries` defaults to `0`, so every top-level
call starts with its own attempt counter at zero, independent of any other
call. -/
def withRetry (innerFn : Nat → JsOutcome T) : JsOutcome T × List (Option Int) :=
  retryAfterRateLimitApplied innerFn 0

structure ExternalUrlObject where
  key : String
  value : String
deriving DecidableEq

structure FollowersObject where
  href : String
  total : Nat
deriving DecidableEq

structure ImageObject where
  height : Nat
  url : String
  width : Nat
deriving DecidableEq

structure ArtistObject where
  id : String
  external_urls : List ExternalUrlObject
  followers : FollowersObject
  genres : List String
  href : String
  images : List ImageObject
  name : String
  popularity : Nat
  type : String
  uri : String
deriving DecidableEq

structure SimplifiedAlbumObject where
  album_group : String
  album_type : String
  artists : List ArtistObject
  available_markets : List String
  external_urls : List ExternalUrlObject
  href : String
  id : String
  images : List ImageObject
  name : String
  release_date : String
  release_date_precision : String
  total_tracks : Nat
  type : String
  uri : String
deriving DecidableEq

structure PagingObject (Resource : Type) where
  items : List Resource
  limit : Nat
  next : Option String
  offset : Nat
  previous : Option String
  total : Nat
  href : String
deriving DecidableEq

/-- The body of the `artists` endpoint response: `{ artists: [...] }`. -/
structure ArtistsResponse where
  artists : List ArtistObject
deriving DecidableEq

/-- A GET request against the API base, as passed to
`client.get(path, { params })`. -/
structure SpotifyRequest where
  path : String
  params : List (String × String)
deriving DecidableEq

/-- The request issued by `SpotifyClient.getArtists`: the `artists` endpoint
with the identifiers comma-joined into the single `ids` query parameter. -/
def getArtistsRequest (ids : List String) : SpotifyRequest :=
  ⟨"artists", [("ids", String.intercalate "," ids)]⟩

/-- The request issued by `SpotifyClient.getLatestAlbum`: the artist's
`albums` endpoint with page size `limit = 1`. -/
def getLatestAlbumRequest (artistId : String) : SpotifyRequest :=
  ⟨"artists/" ++ artistId ++ "/albums", [("limit", "1")]⟩

/-- `SpotifyClient.getArtists(ids)`: one GET of `getArtistsRequest ids`
through the retry wrapper; on success the `artists` field of the body is
returned. The transport is modelled as a function from the request and the
number of previous attempts to the outcome. -/
def getArtists (transport : SpotifyRequest → Nat → JsOutcome ArtistsResponse)
    (ids : List String) : JsOutcome (List ArtistObject) × List (Option Int) :=
  let r := withRetry (fun k => transport (getArtistsRequest ids) k)
  (match r.1 with
   | .resolved resp => .resolved resp.artists
   | .rejected e => .rejected e, r.2)

/-- `SpotifyClient.getLatestAlbum(artistId)`: one GET of
`getLatestAlbumRequest artistId` through the retry wrapper; on success
`response.data.items[0]` is returned — `undefined` (here `none`) when the
artist has no releases. -/
def getLatestAlbum
    (transport : SpotifyRequest → Nat → JsOutcome (PagingObject SimplifiedAlbumObject))
    (artistId : String) : JsOutcome (Option SimplifiedAlbumObject) × List (Option Int) :=
  let r := withRetry (fun k => transport (getLatestAlbumRequest artistId) k)
  (match r.1 with
   | .resolved page => .resolved page.items.head?
   | .rejected e => .rejected e, r.2)

/-- `{ spotify?: { id: string | null } }` — the parsed `shop_artist_ids`. -/
structure SpotifyRef where
  id : Option String
deriving DecidableEq

structure RemoteIds where
  spotify : Option SpotifyRef
deriving DecidableEq

/-- An input record of `main`; only the field read by the
identifier-extraction loop is modelled. -/
structure InputRecord where
  shop_artist_ids : Option RemoteIds
deriving DecidableEq

/-- The identifier-extraction loop of `main`: for each record in order, push
`shop_artist_ids?.spotify?.id` when that optional chain yields a truthy
value (present, non-`null` and non-empty — the empty string is falsy in
JavaScript). -/
def extractSpotifyIds (records : List InputRecord) : List String :=
  records.foldr
    (fun r acc =>
      match r.shop_artist_ids with
      | some ri =>
        match ri.spotify with
        | some sp =>
          match sp.id with
          | some s => if s = "" then acc else s :: acc
          | none => acc
        | none => acc
      | none => acc)
    []

/-- `spotifyIds` after the `spotifyIds = uniq(spotifyIds)` step of `main`. -/
def dedupedSpotifyIds (records : List InputRecord) : List String :=
  uniq (extractSpotifyIds records)

/-- The upstream batch calls issued by the artist-fetch stage of `main`:
`chunk(spotifyIds, 50)` and one `getArtists` call per chunk, scheduled by
`chunkRequests` with concurrency ceiling `c`. -/
def artistFetchCalls (spotifyIds : List String) (c : Nat) : List SpotifyRequest :=
  chunkRequests (chunk spotifyIds 50) (fun idsChunk _ => getArtistsRequest idsChunk) c

/-- The writes performed by one group whose per-element operations write into
a shared dictionary: every resolved element performs its write. -/
def groupWrites (ops : List (Except JsError W)) : List W :=
  ops.filterMap (fun o => o.toOption)

/-- `Promise.all` rejects with the first rejection of the group. -/
def groupFirstError (ops : List (Except JsError W)) : Option JsError :=
  (ops.filterMap (fun o =>
    match o with
    | .error e => some e
    | .ok _ => none)).head?

/-- `chunkRequests` over a dictionary-writing operation: groups run strictly
in sequence; the writes of every resolved element of a group are performed;
a rejection aborts the remaining groups (fail-fast) and becomes the overall
error, without rolling back writes already performed. -/
def runChunksWrites (op : α → Nat → Except JsError W) (c : Nat) :
    List (List α) → Nat → List W × Option JsError
  | [], _ => ([], none)
  | ck :: rest, g =>
    let ops := mapIdxAux (fun v idx => op v (g * c + idx)) 0 ck
    match groupFirstError ops with
    | some e => (groupWrites ops, some e)
    | none =>
      let r := runChunksWrites op c rest (g + 1)
      (groupWrites ops ++ r.1, r.2)

def chunkRequestsWrites (inputs : List α) (op : α → Nat → Except JsError W)
    (c : Nat) : List W × Option JsError :=
  runChunksWrites op c (chunk inputs c) 0

/-- One output write of `writeOutput`: the artist list and the
artist-to-latest-album dictionary current at the time of the write. -/
structure OutputWrite where
  artists : List ArtistObject
  artistIdToLatestAlbumDict : List (String × Option SimplifiedAlbumObject)
deriving DecidableEq

/-- The fetch phase and its `try`/`finally` in `main`: `artists` and the
album dictionary start empty; the `try` block fills them (artist fetch, then
per-artist latest-album fetch); whatever happens, the `finally` block writes
the then-current values exactly once, and a fetch error propagates after
that write. `stage1` is the outcome of the artist-fetch stage and `albumOp`
the per-identifier latest-album fetch. -/
def mainTryFinally (stage1 : Except JsError (List ArtistObject))
    (albumOp : String → Nat → Except JsError (Option SimplifiedAlbumObject))
    (c : Nat) : List OutputWrite × Option JsError :=
  match stage1 with
  | .error e => ([⟨[], []⟩], some e)
  | .ok artists =>
    let second := chunkRequestsWrites artists
      (fun artist i => (albumOp artist.id i).map (fun alb => (artist.id, alb))) c
    ([⟨artists, second.1⟩], second.2)

/-- The dictionary-writing operation of the latest-album stage:
`artistIdToLatestAlbumDict[artist.id] = await getLatestAlbum(artist.id)`. -/
def albumWriteOp
    (albumOp : String → Nat → Except JsError (Option SimplifiedAlbumObject)) :
    ArtistObject → Nat → Except JsError (String × Option SimplifiedAlbumObject) :=
  fun artist i => (albumOp artist.id i).map (fun alb => (artist.id, alb))

/-- A mocked transport that fails every invocation with `429 Too Many
Requests` and `Retry-After: 0`; the error message records the invocation
number. -/
def always429Zero : Nat → JsOutcome Nat :=
  fun k => .rejected ⟨toString k, some ⟨429, some "0"⟩⟩

/-- A mocked transport that fails every invocation with a 429 response that
carries no `Retry-After` header; the error message records the invocation
number. -/
def always429NoHeader : Nat → JsOutcome Nat :=
  fun k => .rejected ⟨toString k, some ⟨429, none⟩⟩

/-- A mocked transport that is rate limited exactly once (`Retry-After: 3`)
and then succeeds. -/
def rateLimitedOnce : Nat → JsOutcome Nat :=
  fun k => if k = 0 then .rejected ⟨"rate limited", some ⟨429, some "3"⟩⟩ else .resolved 7

/-- 120 distinct identifiers. -/
def oneHundredTwentyIds : List String := (List.range 120).map toString

/-- A completion schedule for a run with groups of sizes 2 and 1 that
reverses the completion order inside the first group. -/
def reversedSchedule : Nat → List Nat :=
  fun g => if g = 0 then [1, 0] else [0]

/-- A concrete album used by the mocked releases endpoint. -/
def sampleAlbum : SimplifiedAlbumObject :=
  ⟨"album", "album", [], [], [], "", "alb1", [], "First Album", "2020-01-01",
    "day", 10, "album", "spotify:album:alb1"⟩

/-- A mocked releases-endpoint page containing exactly `sampleAlbum`. -/
def samplePage : PagingObject SimplifiedAlbumObject :=
  ⟨[sampleAlbum], 1, none, 0, none, 1, ""⟩

/-- A mocked transport answering every request with `samplePage`. -/
def sampleTransport : SpotifyRequest → Nat → JsOutcome (PagingObject SimplifiedAlbumObject) :=
  fun _ _ => .resolved samplePage

/-- A mocked transport answering every request with an empty page. -/
def emptyPageTransport : SpotifyRequest → Nat → JsOutcome (PagingObject SimplifiedAlbumObject) :=
  fun _ _ => .resolved ⟨[], 1, none, 0, none, 0, ""⟩

def artistA : ArtistObject :=
  ⟨"A", [], ⟨"", 0⟩, [], "", [], "Artist A", 10, "artist", "spotify:artist:A"⟩

def artistB : ArtistObject :=
  ⟨"B", [], ⟨"", 0⟩, [], "", [], "Artist B", 20, "artist", "spotify:artist:B"⟩

/-- A latest-album fetch that succeeds for artist `A` (which has no
releases) and fails for every other artist. -/
def albumOpW : String → Nat → Except JsError (Option SimplifiedAlbumObject) :=
  fun s _ => if s = "A" then .ok none else .error ⟨"boom", none⟩

def errW : JsError := ⟨"fatal", none⟩

theorem chunk_nil (n : Nat) : chunk ([] : List α) n = [] := by
  rw [chunk]

theorem chunk_zero (l : List α) : chunk l 0 = [] := by
  cases l <;> rw [chunk]

theorem chunk_eq_cons {l : List α} {n : Nat} (hl : l ≠ []) (hn : n ≠ 0) :
    chunk l n = l.take n :: chunk (l.drop n) n := by
  cases l with
  | nil => exact absurd rfl hl
  | cons x xs =>
    cases n with
    | zero => exact absurd rfl hn
    | succ n => rw [chunk]

/-- JavaScript `array.map((value, index) => g value index)`, generalised over
the index `i` given to the first element. -/

theorem mapIdxAux_length (g : α → Nat → β) (i : Nat) (l : List α) :
    (mapIdxAux g i l).length = l.length := by
  induction l generalizing i with
  | nil => rfl
  | cons x xs ih => simp [mapIdxAux, ih]

theorem mapIdxAux_append (g : α → Nat → β) (i : Nat) (a b : List α) :
    mapIdxAux g i (a ++ b) = mapIdxAux g i a ++ mapIdxAux g (i + a.length) b := by
  induction a generalizing i with
  | nil => simp [mapIdxAux]
  | cons x xs ih =>
    simp only [List.cons_append, mapIdxAux, List.length_cons, List.append_eq]
    rw [ih (i + 1)]
    have h2 : i + 1 + xs.length = i + (xs.length + 1) := by omega
    rw [h2]

theorem mapIdxAux_shift (g : α → Nat → β) (i j : Nat) (l : List α) :
    mapIdxAux g (i + j) l = mapIdxAux (fun v k => g v (i + k)) j l := by
  induction l generalizing j with
  | nil => rfl
  | cons x xs ih =>
    simp only [mapIdxAux]
    rw [← ih (j + 1)]
    have h2 : i + j + 1 = i + (j + 1) := by omega
    rw [h2]

theorem mapIdxAux_getElem? (g : α → Nat → β) (i : Nat) (l : List α) (j : Nat) :
    (mapIdxAux g i l)[j]? = l[j]?.map (fun v => g v (i + j)) := by
  induction l generalizing i j with
  | nil => simp [mapIdxAux]
  | cons x xs ih =>
    cases j with
    | zero => simp [mapIdxAux]
    | succ j =>
      simp only [mapIdxAux, List.getElem?_cons_succ]
      rw [ih (i + 1) j]
      have h2 : i + 1 + j = i + (j + 1) := by omega
      rw [h2]

/-- `chunkRequests(inputArray, requestFn, concurrentRequests)` from the source:
chunk the input, then for each chunk in order run `requestFn` on every element
with global index `i * concurrentRequests + index`, collecting each chunk's
results in element order (`Promise.all`) and flattening. -/

theorem chunkRequests_aux (f : α → Nat → β) (c : Nat) (hc : 1 ≤ c) :
    ∀ (m : Nat) (l : List α), l.length ≤ m → ∀ (g : Nat),
      (mapIdxAux (fun ck i => mapIdxAux (fun v idx => f v (i * c + idx)) 0 ck) g
        (chunk l c)).flatten
        = mapIdxAux f (g * c) l := by
  intro m
  induction m with
  | zero =>
    intro l hl g
    have hnil : l = [] := by
      cases l with
      | nil => rfl
      | cons x xs => exact absurd hl (by simp)
    subst hnil
    simp [chunk_nil, mapIdxAux]
  | succ m ih =>
    intro l hl g
    by_cases hle : l = []
    · subst hle
      simp [chunk_nil, mapIdxAux]
    · rw [chunk_eq_cons hle (by omega)]
      simp only [mapIdxAux, List.flatten_cons]
      rw [ih (l.drop c) (by
        have h3 : 0 < l.length := List.length_pos.mpr hle
        simp only [List.length_drop]
        omega) (g + 1)]
      conv_rhs => rw [← List.take_append_drop c l]
      rw [mapIdxAux_append]
      congr 1
      · have h4 := mapIdxAux_shift f (g * c) 0 (l.take c)
        simp only [Nat.add_zero] at h4
        rw [h4]
      · by_cases hcl : c ≤ l.length
        · have hlen : (l.take c).length = c := by
            simp only [List.length_take]
            omega
          rw [hlen]
          congr 1
          ring
        · have hdrop : l.drop c = [] := List.drop_eq_nil_of_le (by omega)
          simp [hdrop, mapIdxAux]

/-- With any positive concurrency ceiling, `chunkRequests` computes exactly the
indexed map of the request function over the input. -/
theorem chunkRequests_eq_map (l : List α) (f : α → Nat → β) (c : Nat) (hc : 1 ≤ c) :
    chunkRequests l f c = mapIdxAux f 0 l := by
  have h := chunkRequests_aux f c hc l.length l le_rfl 0
  simpa [chunkRequests] using h

/-- lodash `_.uniq(array)`: keep the first occurrence of each element, in
order of first occurrence; `seen` carries the elements already emitted. -/

theorem uniqAux_mem [DecidableEq α] (seen : List α) (l : List α) (a : α) :
    a ∈ uniqAux seen l ↔ a ∈ l ∧ a ∉ seen := by
  induction l generalizing seen with
  | nil => simp [uniqAux]
  | cons x xs ih =>
    by_cases hx : x ∈ seen
    · simp only [uniqAux, if_pos hx, ih, List.mem_cons]
      constructor
      · rintro ⟨h1, h2⟩
        exact ⟨Or.inr h1, h2⟩
      · rintro ⟨h1 | h1, h2⟩
        · exact absurd (h1 ▸ hx) h2
        · exact ⟨h1, h2⟩
    · simp only [uniqAux, if_neg hx, List.mem_cons, ih (x :: seen)]
      constructor
      · rintro (rfl | ⟨h1, h2⟩)
        · exact ⟨Or.inl rfl, hx⟩
        · refine ⟨Or.inr h1, fun hs => h2 ?_⟩
          exact Or.inr hs
      · rintro ⟨rfl | h1, h2⟩
        · exact Or.inl rfl
        · by_cases hax : a = x
          · exact Or.inl hax
          · refine Or.inr ⟨h1, ?_⟩
            simp only [List.mem_cons, not_or]
            exact ⟨hax, h2⟩

theorem uniqAux_sublist [DecidableEq α] (seen : List α) (l : List α) :
    (uniqAux seen l).Sublist l := by
  induction l generalizing seen with
  | nil => simp [uniqAux]
  | cons x xs ih =>
    by_cases hx : x ∈ seen
    · simp only [uniqAux, if_pos hx]
      exact (ih seen).cons x
    · simp only [uniqAux, if_neg hx]
      exact (ih (x :: seen)).cons₂ x

theorem uniqAux_nodup [DecidableEq α] (seen : List α) (l : List α) :
    (uniqAux seen l).Nodup := by
  induction l generalizing seen with
  | nil => simp [uniqAux]
  | cons x xs ih =>
    by_cases hx : x ∈ seen
    · simpa only [uniqAux, if_pos hx] using ih seen
    · simp only [uniqAux, if_neg hx]
      refine List.nodup_cons.mpr ⟨?_, ih (x :: seen)⟩
      intro hmem
      exact ((uniqAux_mem _ _ _).mp hmem).2 (List.mem_cons_self x seen)

/-- The elements kept by `uniqAux` are emitted in strictly increasing order of
their first occurrence in the scanned list. -/
theorem uniqAux_pairwise_indexOf [DecidableEq α] (l seen : List α) :
    (uniqAux seen l).Pairwise (fun a b => l.indexOf a < l.indexOf b) := by
  induction l generalizing seen with
  | nil => simp [uniqAux]
  | cons x xs ih =>
    by_cases hx : x ∈ seen
    · simp only [uniqAux, if_pos hx]
      refine (ih seen).imp_of_mem ?_
      intro a b ha hb hab
      have ha2 := ((uniqAux_mem seen xs a).mp ha).2
      have hb2 := ((uniqAux_mem seen xs b).mp hb).2
      have hax : x ≠ a := fun h => ha2 (h ▸ hx)
      have hbx : x ≠ b := fun h => hb2 (h ▸ hx)
      rw [List.indexOf_cons_ne _ hax, List.indexOf_cons_ne _ hbx]
      omega
    · simp only [uniqAux, if_neg hx]
      refine List.pairwise_cons.mpr ⟨?_, ?_⟩
      · intro b hb
        have hb2 := ((uniqAux_mem _ _ _).mp hb).2
        have hbx : x ≠ b := fun h => hb2 (h ▸ List.mem_cons_self x seen)
        rw [List.indexOf_cons_self, List.indexOf_cons_ne _ hbx]
        omega
      · refine (ih (x :: seen)).imp_of_mem ?_
        intro a b ha hb hab
        have ha2 := ((uniqAux_mem _ _ _).mp ha).2
        have hb2 := ((uniqAux_mem _ _ _).mp hb).2
        have hax : x ≠ a := fun h => ha2 (h ▸ List.mem_cons_self x seen)
        have hbx : x ≠ b := fun h => hb2 (h ▸ List.mem_cons_self x seen)
        rw [List.indexOf_cons_ne _ hax, List.indexOf_cons_ne _ hbx]
        omega

theorem uniq_mem [DecidableEq α] (l : List α) (a : α) : a ∈ uniq l ↔ a ∈ l := by
  simp [uniq, uniqAux_mem]

theorem uniq_nodup [DecidableEq α] (l : List α) : (uniq l).Nodup :=
  uniqAux_nodup [] l

theorem uniq_sublist [DecidableEq α] (l : List α) : (uniq l).Sublist l :=
  uniqAux_sublist [] l

theorem uniq_pairwise_indexOf [DecidableEq α] (l : List α) :
    (uniq l).Pairwise (fun a b => l.indexOf a < l.indexOf b) :=
  uniqAux_pairwise_indexOf l []

theorem map_mapIdxAux (h : β → γ) (g : α → Nat → β) (i : Nat) (l : List α) :
    (mapIdxAux g i l).map h = mapIdxAux (fun v k => h (g v k)) i l := by
  induction l generalizing i with
  | nil => rfl
  | cons x xs ih => simp only [mapIdxAux, List.map_cons, ih]

theorem mapIdxAux_congr_mem (F G1 : α → Nat → β) (i : Nat) (l : List α)
    (h : ∀ j x, l[j]? = some x → F x (i + j) = G1 x (i + j)) :
    mapIdxAux F i l = mapIdxAux G1 i l := by
  induction l generalizing i with
  | nil => rfl
  | cons x xs ih =>
    simp only [mapIdxAux]
    have h0 := h 0 x (by simp)
    rw [Nat.add_zero] at h0
    rw [h0]
    congr 1
    refine ih (i + 1) ?_
    intro j y hy
    have := h (j + 1) y (by simpa using hy)
    have h2 : i + (j + 1) = i + 1 + j := by omega
    rw [h2] at this
    exact this

/-- `Promise.all` result assembly under an explicit completion schedule: the
element operations of one group write their results into their own slot of
the result array, in the order `order` in which they complete. -/

theorem fillSlotsFrom_getElem?_not_mem (tasks : List β) (order : List Nat)
    (arr : List (Option β)) (s : Nat) (hs : s ∉ order) :
    (fillSlotsFrom tasks order arr)[s]? = arr[s]? := by
  induction order generalizing arr with
  | nil => rfl
  | cons x rest ih =>
    have hxs : x ≠ s := by
      intro h
      exact hs (h ▸ List.mem_cons_self x rest)
    have hsrest : s ∉ rest := fun h => hs (List.mem_cons_of_mem _ h)
    simp only [fillSlotsFrom]
    cases htask : tasks[x]? with
    | none => exact ih _ hsrest
    | some v =>
      rw [ih _ hsrest]
      exact List.getElem?_set_ne hxs

theorem fillSlotsFrom_length (tasks : List β) (order : List Nat)
    (arr : List (Option β)) :
    (fillSlotsFrom tasks order arr).length = arr.length := by
  induction order generalizing arr with
  | nil => rfl
  | cons x rest ih =>
    simp only [fillSlotsFrom]
    cases htask : tasks[x]? with
    | none => exact ih _
    | some v =>
      rw [ih _]
      exact List.length_set arr x (some v)

theorem fillSlotsFrom_getElem?_mem (tasks : List β) (order : List Nat)
    (arr : List (Option β)) (s : Nat) (v : β) (hlen : arr.length = tasks.length)
    (hmem : s ∈ order) (htask : tasks[s]? = some v) :
    (fillSlotsFrom tasks order arr)[s]? = some (some v) := by
  have hslt : s < tasks.length := by
    by_contra hcon
    rw [List.getElem?_eq_none (by omega)] at htask
    cases htask
  induction order generalizing arr with
  | nil => cases hmem
  | cons x rest ih =>
    simp only [fillSlotsFrom]
    by_cases hrest : s ∈ rest
    · cases h2 : tasks[x]? with
      | none => exact ih _ hlen hrest
      | some w =>
        refine ih _ ?_ hrest
        rw [List.length_set]
        exact hlen
    · have hsx : s = x := by
        rcases List.mem_cons.mp hmem with h | h
        · exact h
        · exact absurd h hrest
      subst hsx
      rw [htask]
      rw [fillSlotsFrom_getElem?_not_mem tasks rest _ s hrest]
      exact List.getElem?_set_self (by omega)

/-- If every task of the group completes (the completion order is a
permutation of the slots), the assembled group result is the tasks' results
in slot order, independent of the completion order. -/
theorem runGroupSched_perm (tasks : List β) (order : List Nat)
    (hperm : order.Perm (List.range tasks.length)) :
    runGroupSched tasks order = tasks.map some := by
  apply List.ext_getElem?
  intro n
  by_cases hn : n < tasks.length
  · have hmem : n ∈ order := hperm.mem_iff.mpr (List.mem_range.mpr hn)
    have htask : tasks[n]? = some tasks[n] := List.getElem?_eq_getElem hn
    rw [runGroupSched,
      fillSlotsFrom_getElem?_mem tasks order _ n _ (by simp) hmem htask]
    simp [hn]
  · have hnotmem : n ∉ order := by
      intro h
      exact hn (List.mem_range.mp (hperm.subset h))
    rw [runGroupSched, fillSlotsFrom_getElem?_not_mem tasks order _ n hnotmem]
    rw [List.getElem?_eq_none (by simp; omega),
      List.getElem?_eq_none (by simp; omega)]

/-- Whatever the completion order of the operations inside each group, the
scheduled executor computes exactly the results of the order-preserving
functional executor. -/
theorem chunkRequestsSched_eq (inputArray : List α) (requestFn : α → Nat → β)
    (c : Nat) (orders : Nat → List Nat)
    (hord : ∀ i ck, (chunk inputArray c)[i]? = some ck →
      (orders i).Perm (List.range ck.length)) :
    chunkRequestsSched inputArray requestFn c orders
      = (chunkRequests inputArray requestFn c).map some := by
  rw [chunkRequestsSched, chunkRequests, List.map_flatten, map_mapIdxAux]
  congr 1
  refine mapIdxAux_congr_mem _ _ 0 (chunk inputArray c) ?_
  intro j ck hck
  rw [Nat.zero_add]
  have hperm := hord j ck hck
  rw [runGroupSched_perm _ _ (by
    rw [mapIdxAux_length]
    exact hperm)]

theorem chunk_sizes_le (c : Nat) :
    ∀ (m : Nat) (l : List α), l.length ≤ m → ∀ ck ∈ chunk l c, ck.length ≤ c := by
  intro m
  induction m with
  | zero =>
    intro l hl ck hck
    have hnil : l = [] := by
      cases l with
      | nil => rfl
      | cons x xs => exact absurd hl (by simp)
    subst hnil
    rw [chunk_nil] at hck
    cases hck
  | succ m ih =>
    intro l hl ck hck
    by_cases hle : l = []
    · subst hle
      rw [chunk_nil] at hck
      cases hck
    · by_cases hc0 : c = 0
      · subst hc0
        rw [chunk_zero] at hck
        cases hck
      · rw [chunk_eq_cons hle hc0] at hck
        rcases List.mem_cons.mp hck with h | h
        · subst h
          simp only [List.length_take]
          omega
        · refine ih (l.drop c) ?_ ck h
          have h3 : 0 < l.length := List.length_pos.mpr hle
          simp only [List.length_drop]
          omega

/-- Events of one `chunkRequests` execution: `launch g s` starts the operation
in slot `s` of group `g` (the `.map` inside `Promise.all` starts every
operation of the group before any is awaited); `complete g s` is its
completion. -/

theorem countP_launch_map_launch (g : Nat) (xs : List Nat) :
    (xs.map (BatchEv.launch g)).countP isLaunch = xs.length := by
  induction xs with
  | nil => rfl
  | cons x xs ih => simp [List.countP_cons, ih, isLaunch]

theorem countP_complete_map_launch (g : Nat) (xs : List Nat) :
    (xs.map (BatchEv.launch g)).countP isComplete = 0 := by
  induction xs with
  | nil => rfl
  | cons x xs ih => simp [List.countP_cons, ih, isComplete]

theorem countP_launch_map_complete (g : Nat) (xs : List Nat) :
    (xs.map (BatchEv.complete g)).countP isLaunch = 0 := by
  induction xs with
  | nil => rfl
  | cons x xs ih => simp [List.countP_cons, ih, isLaunch]

theorem countP_complete_map_complete (g : Nat) (xs : List Nat) :
    (xs.map (BatchEv.complete g)).countP isComplete = xs.length := by
  induction xs with
  | nil => rfl
  | cons x xs ih => simp [List.countP_cons, ih, isComplete]

theorem groupTrace_take_countP (g k : Nat) (order : List Nat) (n : Nat) :
    ((groupTrace g k order).take n).countP isLaunch = min n k
    ∧ ((groupTrace g k order).take n).countP isComplete = min (n - k) order.length := by
  rw [groupTrace, List.take_append_eq_append_take, List.countP_append,
    List.countP_append]
  rw [← List.map_take, ← List.map_take]
  rw [countP_launch_map_launch, countP_complete_map_launch,
    countP_launch_map_complete, countP_complete_map_complete]
  simp only [List.length_take, List.length_range, List.length_map]
  omega

theorem groupTrace_countP (g k : Nat) (order : List Nat) :
    (groupTrace g k order).countP isLaunch = k
    ∧ (groupTrace g k order).countP isComplete = order.length := by
  rw [groupTrace, List.countP_append, List.countP_append,
    countP_launch_map_launch, countP_complete_map_launch,
    countP_launch_map_complete, countP_complete_map_complete]
  simp

theorem groupTrace_length (g k : Nat) (order : List Nat) :
    (groupTrace g k order).length = k + order.length := by
  simp [groupTrace]

/-- Core invariant behind the concurrency bound: in every prefix of the
execution trace, completions never outnumber launches, and the number of
pending operations (launched, not yet completed) never exceeds `c`,
provided every group has at most `c` elements and every launched operation
completes exactly once within its group. -/
theorem execTraceAux_take_bound (c : Nat) (orders : Nat → List Nat) :
    ∀ (chunks : List (List α)) (g : Nat),
      (∀ i ck, chunks[i]? = some ck →
        (orders (g + i)).length = ck.length ∧ ck.length ≤ c) →
      ∀ n,
        ((execTraceAux orders chunks g).take n).countP isComplete
          ≤ ((execTraceAux orders chunks g).take n).countP isLaunch
        ∧ ((execTraceAux orders chunks g).take n).countP isLaunch
          - ((execTraceAux orders chunks g).take n).countP isComplete ≤ c := by
  intro chunks
  induction chunks with
  | nil =>
    intro g hs n
    simp [execTraceAux]
  | cons ck rest ih =>
    intro g hs n
    have hck := hs 0 ck (by simp)
    rw [Nat.add_zero] at hck
    have hrest : ∀ i ck2, rest[i]? = some ck2 →
        (orders (g + 1 + i)).length = ck2.length ∧ ck2.length ≤ c := by
      intro i ck2 h2
      have := hs (i + 1) ck2 (by simpa using h2)
      have h3 : g + (i + 1) = g + 1 + i := by omega
      rw [h3] at this
      exact this
    have hihn := ih (g + 1) hrest (n - (groupTrace g ck.length (orders g)).length)
    simp only [execTraceAux, List.take_append_eq_append_take, List.countP_append]
    have hgt := groupTrace_take_countP g ck.length (orders g) n
    rw [hgt.1, hgt.2]
    rw [groupTrace_length] at hihn ⊢
    rcases hck with ⟨hol, hlc⟩
    rw [hol] at hihn ⊢
    rcases hihn with ⟨hih1, hih2⟩
    by_cases hn2 : n ≤ ck.length + ck.length
    · have hz : n - (ck.length + ck.length) = 0 := by omega
      rw [hz, List.take_zero] at hih1 hih2 ⊢
      simp only [List.countP_nil] at hih1 hih2 ⊢
      constructor
      · omega
      · omega
    · constructor
      · omega
      · omega

/-- The concurrency bound for a complete `chunkRequests` execution. -/
theorem execTrace_take_bound (inputArray : List α) (c : Nat)
    (orders : Nat → List Nat)
    (hord : ∀ i ck, (chunk inputArray c)[i]? = some ck →
      (orders i).Perm (List.range ck.length)) (n : Nat) :
    ((execTrace inputArray c orders).take n).countP isComplete
      ≤ ((execTrace inputArray c orders).take n).countP isLaunch
    ∧ ((execTrace inputArray c orders).take n).countP isLaunch
      - ((execTrace inputArray c orders).take n).countP isComplete ≤ c := by
  refine execTraceAux_take_bound c orders (chunk inputArray c) 0 ?_ n
  intro i ck hck
  constructor
  · rw [Nat.zero_add]
    have := (hord i ck hck).length_eq
    simpa using this
  · refine chunk_sizes_le c inputArray.length inputArray le_rfl ck ?_
    exact List.getElem?_mem hck

/-- The parts of an axios error response read by
`retryAfterRateLimitApplied`: the HTTP status and the `retry-after` response
header (`none` when the server did not send that header). -/

theorem retryAfterRateLimitApplied_resolved (innerFn : Nat → JsOutcome T)
    (p : Nat) (v : T) (h : innerFn p = .resolved v) :
    retryAfterRateLimitApplied innerFn p = (.resolved v, []) := by
  rw [retryAfterRateLimitApplied, h]

theorem retryAfterRateLimitApplied_throw (innerFn : Nat → JsOutcome T)
    (p : Nat) (e : JsError)
    (h : innerFn p = .rejected e)
    (hcond : e.response.map JsResponse.status ≠ some TOO_MANY_REQUESTS
      ∨ MAX_RETRIES ≤ p) :
    retryAfterRateLimitApplied innerFn p = (.rejected e, []) := by
  rw [retryAfterRateLimitApplied, h]
  dsimp only
  rw [dif_pos hcond]

theorem retryAfterRateLimitApplied_retry (innerFn : Nat → JsOutcome T)
    (p : Nat) (e : JsError)
    (h : innerFn p = .rejected e)
    (hcond : ¬(e.response.map JsResponse.status ≠ some TOO_MANY_REQUESTS
      ∨ MAX_RETRIES ≤ p)) :
    retryAfterRateLimitApplied innerFn p =
      ((retryAfterRateLimitApplied innerFn (p + 1)).1,
        (e.response.bind JsResponse.retryAfter).bind jsParseInt
          :: (retryAfterRateLimitApplied innerFn (p + 1)).2) := by
  rw [retryAfterRateLimitApplied, h]
  dsimp only
  rw [dif_neg hcond]

theorem chunk_flatten (c : Nat) (hc : 1 ≤ c) :
    ∀ (m : Nat) (l : List α), l.length ≤ m → (chunk l c).flatten = l := by
  intro m
  induction m with
  | zero =>
    intro l hl
    have hnil : l = [] := by
      cases l with
      | nil => rfl
      | cons x xs => exact absurd hl (by simp)
    subst hnil
    simp [chunk_nil]
  | succ m ih =>
    intro l hl
    by_cases hle : l = []
    · subst hle
      simp [chunk_nil]
    · rw [chunk_eq_cons hle (by omega), List.flatten_cons,
        ih (l.drop c) (by
          have h3 : 0 < l.length := List.length_pos.mpr hle
          simp only [List.length_drop]
          omega),
        List.take_append_drop]

theorem mapIdxAux_const_map (h : α → β) (i : Nat) (l : List α) :
    mapIdxAux (fun v _ => h v) i l = l.map h := by
  induction l generalizing i with
  | nil => rfl
  | cons x xs ih => simp only [mapIdxAux, List.map_cons, ih]

theorem mem_mapIdxAux (g : α → Nat → β) (i : Nat) (l : List α) (b : β) :
    b ∈ mapIdxAux g i l ↔ ∃ j x, l[j]? = some x ∧ b = g x (i + j) := by
  induction l generalizing i with
  | nil => simp [mapIdxAux]
  | cons y ys ih =>
    simp only [mapIdxAux, List.mem_cons, ih (i + 1)]
    constructor
    · rintro (rfl | ⟨j, x, hx, rfl⟩)
      · exact ⟨0, y, by simp, by simp⟩
      · refine ⟨j + 1, x, by simpa using hx, ?_⟩
        have h2 : i + (j + 1) = i + 1 + j := by omega
        rw [h2]
    · rintro ⟨j, x, hx, rfl⟩
      cases j with
      | zero =>
        left
        simp only [List.getElem?_cons_zero, Option.some.injEq] at hx
        subst hx
        simp
      | succ j =>
        right
        refine ⟨j, x, by simpa using hx, ?_⟩
        have h2 : i + 1 + j = i + (j + 1) := by omega
        rw [h2]

theorem groupFirstError_all_ok (f : α → Nat → W) (i : Nat) (ck : List α) :
    groupFirstError (mapIdxAux (fun v idx => Except.ok (f v idx)) i ck) = none := by
  induction ck generalizing i with
  | nil => rfl
  | cons x xs ih =>
    simp only [mapIdxAux, groupFirstError, List.filterMap_cons] at *
    exact ih (i + 1)

theorem groupWrites_all_ok (f : α → Nat → W) (i : Nat) (ck : List α) :
    groupWrites (mapIdxAux (fun v idx => Except.ok (f v idx)) i ck)
      = mapIdxAux f i ck := by
  induction ck generalizing i with
  | nil => rfl
  | cons x xs ih =>
    simp only [mapIdxAux, groupWrites, List.filterMap_cons, Except.toOption] at *
    rw [ih (i + 1)]

/-- When every per-element operation resolves, the dictionary-writing
executor performs exactly the writes of the order-preserving functional
executor and reports no error. -/
theorem runChunksWrites_all_ok (f : α → Nat → W) (c : Nat) :
    ∀ (chunks : List (List α)) (g : Nat),
      runChunksWrites (fun a j => Except.ok (f a j)) c chunks g
        = ((mapIdxAux (fun ck i => mapIdxAux (fun v idx => f v (i * c + idx)) 0 ck)
            g chunks).flatten, none) := by
  intro chunks
  induction chunks with
  | nil => intro g; rfl
  | cons ck rest ih =>
    intro g
    simp only [runChunksWrites, mapIdxAux, List.flatten_cons]
    have h1 : groupFirstError
        (mapIdxAux (fun v idx => Except.ok (f v (g * c + idx))) 0 ck) = none :=
      groupFirstError_all_ok (fun v idx => f v (g * c + idx)) 0 ck
    have h2 : groupWrites
        (mapIdxAux (fun v idx => Except.ok (f v (g * c + idx))) 0 ck)
        = mapIdxAux (fun v idx => f v (g * c + idx)) 0 ck :=
      groupWrites_all_ok (fun v idx => f v (g * c + idx)) 0 ck
    rw [h1, h2, ih (g + 1)]

/-- Every write performed by the dictionary-writing executor is the result of
an operation that actually resolved, applied to an element of one of the
groups. -/
theorem runChunksWrites_sound (op : α → Nat → Except JsError W) (c : Nat) :
    ∀ (chunks : List (List α)) (g : Nat), ∀ w ∈ (runChunksWrites op c chunks g).1,
      ∃ x n, op x n = .ok w ∧ ∃ ck ∈ chunks, x ∈ ck := by
  intro chunks
  induction chunks with
  | nil =>
    intro g w hw
    cases hw
  | cons ck rest ih =>
    intro g w hw
    have hgroup : ∀ w2 ∈ groupWrites (mapIdxAux (fun v idx => op v (g * c + idx)) 0 ck),
        ∃ x n, op x n = .ok w2 ∧ ∃ ck2 ∈ ck :: rest, x ∈ ck2 := by
      intro w2 hw2
      rcases List.mem_filterMap.mp hw2 with ⟨o, ho, hoeq⟩
      rcases (mem_mapIdxAux _ 0 ck o).mp ho with ⟨j, x, hx, rfl⟩
      refine ⟨x, g * c + (0 + j), ?_, ck, List.mem_cons_self _ _, List.getElem?_mem hx⟩
      cases hop : op x (g * c + (0 + j)) with
      | error e => rw [hop] at hoeq; cases hoeq
      | ok v =>
        rw [hop] at hoeq
        simp only [Except.toOption, Option.some.injEq] at hoeq
        rw [hoeq]
    simp only [runChunksWrites] at hw
    cases herr : groupFirstError (mapIdxAux (fun v idx => op v (g * c + idx)) 0 ck) with
    | some e =>
      rw [herr] at hw
      exact hgroup w hw
    | none =>
      rw [herr] at hw
      simp only [List.mem_append] at hw
      rcases hw with hw | hw
      · exact hgroup w hw
      · rcases ih (g + 1) w hw with ⟨x, n, hop, ck2, hck2, hx⟩
        exact ⟨x, n, hop, ck2, List.mem_cons_of_mem _ hck2, hx⟩

theorem chunk_example_three : chunk [(10 : Nat), 20, 30] 2 = [[10, 20], [30]] := by
  simp [chunk_eq_cons, chunk_nil]

theorem reversedSchedule_valid :
    ∀ i ck, (chunk [(10 : Nat), 20, 30] 2)[i]? = some ck →
      (reversedSchedule i).Perm (List.range ck.length) := by
  intro i ck hck
  rw [chunk_example_three] at hck
  match i, hck with
  | 0, hck =>
    simp only [List.getElem?_cons_zero, Option.some.injEq] at hck
    subst hck
    decide
  | 1, hck =>
    simp only [List.getElem?_cons_succ, List.getElem?_cons_zero,
      Option.some.injEq] at hck
    subst hck
    decide
  | Nat.succ (Nat.succ i), hck =>
    simp at hck

theorem always429Zero_run :
    ∀ (n p : Nat), MAX_RETRIES - p = n → p ≤ MAX_RETRIES →
      retryAfterRateLimitApplied always429Zero p
        = (.rejected ⟨toString MAX_RETRIES, some ⟨429, some "0"⟩⟩,
           List.replicate n (some 0)) := by
  intro n
  induction n with
  | zero =>
    intro p h1 h2
    have hp : p = MAX_RETRIES := by omega
    subst hp
    rw [retryAfterRateLimitApplied_throw always429Zero MAX_RETRIES
      ⟨toString MAX_RETRIES, some ⟨429, some "0"⟩⟩ rfl (Or.inr le_rfl)]
    rfl
  | succ n ihn =>
    intro p h1 h2
    have hcond : ¬((JsError.mk (toString p) (some ⟨429, some "0"⟩)).response.map
        JsResponse.status ≠ some TOO_MANY_REQUESTS ∨ MAX_RETRIES ≤ p) := by
      push_neg
      exact ⟨rfl, by omega⟩
    rw [retryAfterRateLimitApplied_retry always429Zero p
      ⟨toString p, some ⟨429, some "0"⟩⟩ rfl hcond]
    rw [ihn (p + 1) (by omega) (by omega)]
    rw [List.replicate_succ]
    rfl

theorem always429NoHeader_run :
    ∀ (n p : Nat), MAX_RETRIES - p = n → p ≤ MAX_RETRIES →
      retryAfterRateLimitApplied always429NoHeader p
        = (.rejected ⟨toString MAX_RETRIES, some ⟨429, none⟩⟩,
           List.replicate n none) := by
  intro n
  induction n with
  | zero =>
    intro p h1 h2
    have hp : p = MAX_RETRIES := by omega
    subst hp
    rw [retryAfterRateLimitApplied_throw always429NoHeader MAX_RETRIES
      ⟨toString MAX_RETRIES, some ⟨429, none⟩⟩ rfl (Or.inr le_rfl)]
    rfl
  | succ n ihn =>
    intro p h1 h2
    have hcond : ¬((JsError.mk (toString p) (some ⟨429, none⟩)).response.map
        JsResponse.status ≠ some TOO_MANY_REQUESTS ∨ MAX_RETRIES ≤ p) := by
      push_neg
      exact ⟨rfl, by omega⟩
    rw [retryAfterRateLimitApplied_retry always429NoHeader p
      ⟨toString p, some ⟨429, none⟩⟩ rfl hcond]
    rw [ihn (p + 1) (by omega) (by omega)]
    rw [List.replicate_succ]
    rfl

/-- C1: for every input sequence (of any length) and every concurrency
ceiling ≥ 1, the batch executor `chunkRequests` returns exactly one result
per input element in input order — element `j` of the output is the request
function applied to element `j` of the input with global index `j` — and the
output does not depend on the completion order of the asynchronous
operations inside each group (any valid completion schedule yields the same
results). -/
theorem chunkRequests_output_matches_input (inputs : List α) (f : α → Nat → β)
    (c : Nat) (j : Nat) (orders : Nat → List Nat) (hc : 1 ≤ c)
    (hord : ∀ i ck, (chunk inputs c)[i]? = some ck →
      (orders i).Perm (List.range ck.length)) :
    (chunkRequests inputs f c).length = inputs.length
    ∧ (chunkRequests inputs f c)[j]? = inputs[j]?.map (fun v => f v j)
    ∧ chunkRequestsSched inputs f c orders = (chunkRequests inputs f c).map some := by
  have he := chunkRequests_eq_map inputs f c hc
  refine ⟨by rw [he, mapIdxAux_length], ?_,
    chunkRequestsSched_eq inputs f c orders hord⟩
  rw [he, mapIdxAux_getElem? f 0 inputs j]
  simp

theorem chunkRequests_output_matches_input_witness :
    (chunkRequests [(10 : Nat), 20, 30] (fun v i => (v, i)) 2).length
      = [(10 : Nat), 20, 30].length
    ∧ (chunkRequests [(10 : Nat), 20, 30] (fun v i => (v, i)) 2)[1]?
        = [(10 : Nat), 20, 30][1]?.map (fun v => (v, 1))
    ∧ chunkRequestsSched [(10 : Nat), 20, 30] (fun v i => (v, i)) 2 reversedSchedule
        = (chunkRequests [(10 : Nat), 20, 30] (fun v i => (v, i)) 2).map some :=
  chunkRequests_output_matches_input [10, 20, 30] (fun v i => (v, i)) 2 1
    reversedSchedule (by omega) reversedSchedule_valid

/-- C7: the batch executor never has more than `c` per-element operations
simultaneously pending: in every prefix of the execution trace (all
operations of a group launched together, then awaited before the next group
starts), completions never exceed launches and the number of pending
operations is at most `c`. -/
theorem chunkRequests_bounded_concurrency (inputs : List α) (c : Nat)
    (orders : Nat → List Nat) (n : Nat)
    (hord : ∀ i ck, (chunk inputs c)[i]? = some ck →
      (orders i).Perm (List.range ck.length)) :
    ((execTrace inputs c orders).take n).countP isComplete
      ≤ ((execTrace inputs c orders).take n).countP isLaunch
    ∧ ((execTrace inputs c orders).take n).countP isLaunch
      - ((execTrace inputs c orders).take n).countP isComplete ≤ c :=
  execTrace_take_bound inputs c orders hord n

theorem chunkRequests_bounded_concurrency_witness :
    ((execTrace [(10 : Nat), 20, 30] 2 reversedSchedule).take 3).countP isComplete
      ≤ ((execTrace [(10 : Nat), 20, 30] 2 reversedSchedule).take 3).countP isLaunch
    ∧ ((execTrace [(10 : Nat), 20, 30] 2 reversedSchedule).take 3).countP isLaunch
      - ((execTrace [(10 : Nat), 20, 30] 2 reversedSchedule).take 3).countP isComplete
        ≤ 2 :=
  chunkRequests_bounded_concurrency [10, 20, 30] 2 reversedSchedule 3
    reversedSchedule_valid

/-- C10: on an empty input sequence `chunkRequests` returns the empty
sequence, every scheduled execution computes no results, and the execution
trace is empty — the per-element operation is never launched — for every
concurrency ceiling. -/
theorem chunkRequests_empty_input (f : α → Nat → β) (c : Nat)
    (orders : Nat → List Nat) :
    chunkRequests ([] : List α) f c = []
    ∧ chunkRequestsSched ([] : List α) f c orders = []
    ∧ execTrace ([] : List α) c orders = []
    ∧ (execTrace ([] : List α) c orders).countP isLaunch = 0 := by
  refine ⟨?_, ?_, ?_, ?_⟩ <;>
    simp [chunkRequests, chunkRequestsSched, execTrace, chunk_nil, mapIdxAux,
      execTraceAux]

/-- C2: the retry wrapper returns a successful result unchanged with no
wait; on a failure whose status is exactly 429 with the attempt count below
the ceiling it reads the `Retry-After` header as an integer number of
seconds, suspends for exactly that many seconds (recorded in the wait
trace), increments the attempt count and retries the same operation; and a
top-level call always starts from attempt count zero. -/
theorem retry_wrapper_success_and_429 {T : Type} (innerFn : Nat → JsOutcome T)
    (p : Nat) (v : T) (e : JsError) (resp : JsResponse) (n : Int) :
    (innerFn p = .resolved v →
      retryAfterRateLimitApplied innerFn p = (.resolved v, []))
    ∧ (innerFn p = .rejected e → e.response = some resp →
        resp.status = TOO_MANY_REQUESTS → p < MAX_RETRIES →
        resp.retryAfter.bind jsParseInt = some n →
        retryAfterRateLimitApplied innerFn p
          = ((retryAfterRateLimitApplied innerFn (p + 1)).1,
             some n :: (retryAfterRateLimitApplied innerFn (p + 1)).2))
    ∧ withRetry innerFn = retryAfterRateLimitApplied innerFn 0 := by
  refine ⟨fun h => retryAfterRateLimitApplied_resolved innerFn p v h, ?_, rfl⟩
  intro h hr hs hp hn
  have hcond : ¬(e.response.map JsResponse.status ≠ some TOO_MANY_REQUESTS
      ∨ MAX_RETRIES ≤ p) := by
    push_neg
    refine ⟨?_, by omega⟩
    rw [hr]
    simp [hs]
  have hsec : (e.response.bind JsResponse.retryAfter).bind jsParseInt = some n := by
    rw [hr]
    simpa using hn
  rw [retryAfterRateLimitApplied_retry innerFn p e h hcond, hsec]

theorem retry_wrapper_success_and_429_witness :
    retryAfterRateLimitApplied (fun _ => JsOutcome.resolved (7 : Nat)) 0
      = (.resolved 7, [])
    ∧ retryAfterRateLimitApplied rateLimitedOnce 0
        = ((retryAfterRateLimitApplied rateLimitedOnce 1).1,
           some 3 :: (retryAfterRateLimitApplied rateLimitedOnce 1).2)
    ∧ withRetry rateLimitedOnce = retryAfterRateLimitApplied rateLimitedOnce 0 :=
  ⟨(retry_wrapper_success_and_429 (fun _ => JsOutcome.resolved (7 : Nat)) 0 7
      ⟨"", none⟩ ⟨0, none⟩ 0).1 rfl,
   (retry_wrapper_success_and_429 rateLimitedOnce 0 7
      ⟨"rate limited", some ⟨429, some "3"⟩⟩ ⟨429, some "3"⟩ 3).2.1 rfl rfl rfl
     (by decide) (by decide),
   (retry_wrapper_success_and_429 rateLimitedOnce 0 7 ⟨"", none⟩ ⟨0, none⟩ 0).2.2⟩

/-- C3: a failure that is not a 429, or a 429 arriving once the retry
ceiling is reached, is propagated unchanged with no further attempt; and
against an operation failing with `429, Retry-After: 0` on every invocation,
the wrapper performs exactly `MAX_RETRIES = 10` waits and then propagates
the error thrown by invocation number 10 — the eleventh invocation —
unchanged. -/
theorem retry_wrapper_propagates_errors {T : Type} (innerFn : Nat → JsOutcome T)
    (p : Nat) (e : JsError) (h : innerFn p = .rejected e)
    (hcond : e.response.map JsResponse.status ≠ some TOO_MANY_REQUESTS
      ∨ MAX_RETRIES ≤ p) :
    retryAfterRateLimitApplied innerFn p = (.rejected e, [])
    ∧ withRetry always429Zero
        = (.rejected ⟨toString MAX_RETRIES, some ⟨429, some "0"⟩⟩,
           List.replicate MAX_RETRIES (some 0))
    ∧ MAX_RETRIES = 10 := by
  refine ⟨retryAfterRateLimitApplied_throw innerFn p e h hcond, ?_, rfl⟩
  rw [withRetry]
  exact always429Zero_run MAX_RETRIES 0 rfl (by omega)

theorem retry_wrapper_propagates_errors_witness :
    retryAfterRateLimitApplied
        (fun _ => (JsOutcome.rejected ⟨"bad request", some ⟨500, none⟩⟩ : JsOutcome Nat)) 0
      = (.rejected ⟨"bad request", some ⟨500, none⟩⟩, [])
    ∧ withRetry always429Zero
        = (.rejected ⟨toString MAX_RETRIES, some ⟨429, some "0"⟩⟩,
           List.replicate MAX_RETRIES (some 0))
    ∧ MAX_RETRIES = 10 :=
  retry_wrapper_propagates_errors
    (fun _ => (JsOutcome.rejected ⟨"bad request", some ⟨500, none⟩⟩ : JsOutcome Nat)) 0
    ⟨"bad request", some ⟨500, none⟩⟩ rfl (Or.inl (by decide))

/-- C4 counterexample: against an operation that fails every invocation with
429 and a missing `Retry-After` header, the wrapper does not propagate the
first attempt's error as a fatal parse failure: it keeps retrying (ten
undefined, `NaN`, waits) and returns the error of invocation number 10, so
its result is not the first attempt's error with an empty wait trace. -/
theorem retry_missing_header_counterexample :
    withRetry always429NoHeader
      = (.rejected ⟨toString MAX_RETRIES, some ⟨429, none⟩⟩,
         List.replicate MAX_RETRIES none)
    ∧ withRetry always429NoHeader
        ≠ (.rejected ⟨toString 0, some ⟨429, none⟩⟩, []) := by
  have h : retryAfterRateLimitApplied always429NoHeader 0
      = (.rejected ⟨toString MAX_RETRIES, some ⟨429, none⟩⟩,
         List.replicate MAX_RETRIES none) :=
    always429NoHeader_run MAX_RETRIES 0 rfl (by omega)
  rw [withRetry]
  refine ⟨h, ?_⟩
  rw [h]
  intro hcon
  have h2 := congrArg Prod.snd hcon
  simp [MAX_RETRIES] at h2

/-- C4 amended: when a 429 failure carries a missing or non-numeric
`Retry-After` header (its parse yields `NaN`) and the attempt count is below
the ceiling, the wrapper does not propagate a parse failure — it records an
undefined wait and retries exactly as for any other 429. -/
theorem retry_missing_header_retries {T : Type} (innerFn : Nat → JsOutcome T)
    (p : Nat) (e : JsError) (resp : JsResponse)
    (h : innerFn p = .rejected e) (hr : e.response = some resp)
    (hs : resp.status = TOO_MANY_REQUESTS) (hp : p < MAX_RETRIES)
    (hparse : resp.retryAfter.bind jsParseInt = none) :
    retryAfterRateLimitApplied innerFn p
      = ((retryAfterRateLimitApplied innerFn (p + 1)).1,
         none :: (retryAfterRateLimitApplied innerFn (p + 1)).2) := by
  have hcond : ¬(e.response.map JsResponse.status ≠ some TOO_MANY_REQUESTS
      ∨ MAX_RETRIES ≤ p) := by
    push_neg
    refine ⟨?_, by omega⟩
    rw [hr]
    simp [hs]
  have hsec : (e.response.bind JsResponse.retryAfter).bind jsParseInt = none := by
    rw [hr]
    simpa using hparse
  rw [retryAfterRateLimitApplied_retry innerFn p e h hcond, hsec]

theorem retry_missing_header_retries_witness :
    retryAfterRateLimitApplied always429NoHeader 0
      = ((retryAfterRateLimitApplied always429NoHeader 1).1,
         none :: (retryAfterRateLimitApplied always429NoHeader 1).2) :=
  retry_missing_header_retries always429NoHeader 0 ⟨toString 0, some ⟨429, none⟩⟩
    ⟨429, none⟩ rfl rfl rfl (by decide) rfl

/-- C5: the resolved fetch list — the identifiers extracted from the input
records, after `uniq` — contains each distinct extracted identifier exactly
once (it is duplicate-free and has exactly the members of the raw extracted
list), is a subsequence of the raw extracted list, and lists the identifiers
in strictly increasing order of first occurrence in the raw extracted
list. -/
theorem deduped_ids_first_occurrence (records : List InputRecord) :
    (dedupedSpotifyIds records).Nodup
    ∧ (∀ a, a ∈ dedupedSpotifyIds records ↔ a ∈ extractSpotifyIds records)
    ∧ (dedupedSpotifyIds records).Sublist (extractSpotifyIds records)
    ∧ (dedupedSpotifyIds records).Pairwise
        (fun a b => (extractSpotifyIds records).indexOf a
          < (extractSpotifyIds records).indexOf b) :=
  ⟨uniq_nodup _, fun a => uniq_mem _ a, uniq_sublist _, uniq_pairwise_indexOf _⟩

/-- C6: the artist-fetch stage issues exactly one upstream `getArtists` call
per chunk, the chunks being a consecutive partition of the deduplicated list
into groups of at most 50; in particular 120 identifiers produce exactly 3
upstream batch calls of sizes 50, 50 and 20, regardless of the concurrency
ceiling `c ≥ 1` used to schedule them. -/
theorem artist_fetch_chunking (ids : List String) (c : Nat) (hc : 1 ≤ c) :
    artistFetchCalls ids c = (chunk ids 50).map getArtistsRequest
    ∧ (∀ ck ∈ chunk ids 50, ck.length ≤ 50)
    ∧ (chunk ids 50).flatten = ids
    ∧ (ids.length = 120 →
        (chunk ids 50).map List.length = [50, 50, 20]
        ∧ (artistFetchCalls ids c).length = 3) := by
  have hmap : artistFetchCalls ids c = (chunk ids 50).map getArtistsRequest := by
    rw [artistFetchCalls, chunkRequests_eq_map _ _ c hc, mapIdxAux_const_map]
  refine ⟨hmap, fun ck hck => chunk_sizes_le 50 ids.length ids le_rfl ck hck,
    chunk_flatten 50 (by omega) ids.length ids le_rfl, ?_⟩
  intro h120
  have h1 : ids ≠ [] := by
    intro h
    rw [h] at h120
    simp at h120
  have hc1 : chunk ids 50 = ids.take 50 :: chunk (ids.drop 50) 50 :=
    chunk_eq_cons h1 (by omega)
  have e1 : (ids.take 50).length = 50 := by
    simp only [List.length_take]
    omega
  have l1 : (ids.drop 50).length = 70 := by
    simp only [List.length_drop]
    omega
  have h2 : ids.drop 50 ≠ [] := by
    intro h
    rw [h] at l1
    simp at l1
  have hc2 : chunk (ids.drop 50) 50
      = (ids.drop 50).take 50 :: chunk ((ids.drop 50).drop 50) 50 :=
    chunk_eq_cons h2 (by omega)
  have e2 : ((ids.drop 50).take 50).length = 50 := by
    simp only [List.length_take]
    omega
  have l2 : ((ids.drop 50).drop 50).length = 20 := by
    simp only [List.length_drop]
    omega
  have h3 : (ids.drop 50).drop 50 ≠ [] := by
    intro h
    rw [h] at l2
    simp at l2
  have hc3 : chunk ((ids.drop 50).drop 50) 50
      = ((ids.drop 50).drop 50).take 50
          :: chunk (((ids.drop 50).drop 50).drop 50) 50 :=
    chunk_eq_cons h3 (by omega)
  have e3 : (((ids.drop 50).drop 50).take 50).length = 20 := by
    simp only [List.length_take]
    omega
  have l3 : ((ids.drop 50).drop 50).drop 50 = [] := by
    have h4 : (((ids.drop 50).drop 50).drop 50).length = 0 := by
      simp only [List.length_drop]
      omega
    exact List.eq_nil_of_length_eq_zero h4
  have hchunk : chunk ids 50
      = [ids.take 50, (ids.drop 50).take 50, ((ids.drop 50).drop 50).take 50] := by
    rw [hc1, hc2, hc3, l3, chunk_nil]
  constructor
  · rw [hchunk]
    simp only [List.map_cons, List.map_nil, e1, e2, e3]
  · rw [hmap, hchunk]
    simp

theorem artist_fetch_chunking_witness :
    (chunk oneHundredTwentyIds 50).map List.length = [50, 50, 20]
    ∧ (artistFetchCalls oneHundredTwentyIds 10).length = 3 :=
  (artist_fetch_chunking oneHundredTwentyIds 10 (by omega)).2.2.2
    (by simp [oneHundredTwentyIds])

/-- C9: `getLatestAlbum` issues a single request — the artist's albums
endpoint with page size `limit = 1` — and, when that request resolves,
returns the first item of the paged response with no retry wait: `some` of
the head when the artist has at least one release and `none` (an explicit
absence, not an error) when the page is empty. -/
theorem getLatestAlbum_first_item
    (transport : SpotifyRequest → Nat → JsOutcome (PagingObject SimplifiedAlbumObject))
    (artistId : String) (page : PagingObject SimplifiedAlbumObject)
    (x : SimplifiedAlbumObject) (xs : List SimplifiedAlbumObject)
    (h : transport (getLatestAlbumRequest artistId) 0 = .resolved page) :
    (getLatestAlbumRequest artistId).params = [("limit", "1")]
    ∧ (getLatestAlbumRequest artistId).path = "artists/" ++ artistId ++ "/albums"
    ∧ getLatestAlbum transport artistId = (.resolved page.items.head?, [])
    ∧ (page.items = [] → getLatestAlbum transport artistId = (.resolved none, []))
    ∧ (page.items = x :: xs →
        getLatestAlbum transport artistId = (.resolved (some x), [])) := by
  have hrun : getLatestAlbum transport artistId = (.resolved page.items.head?, []) := by
    rw [getLatestAlbum, withRetry,
      retryAfterRateLimitApplied_resolved
        (fun k => transport (getLatestAlbumRequest artistId) k) 0 page h]
  refine ⟨rfl, rfl, hrun, ?_, ?_⟩
  · intro hempty
    rw [hrun, hempty]
    rfl
  · intro hcons
    rw [hrun, hcons]
    rfl

theorem getLatestAlbum_first_item_witness :
    getLatestAlbum sampleTransport "A" = (.resolved (some sampleAlbum), [])
    ∧ getLatestAlbum emptyPageTransport "B" = (.resolved none, []) :=
  ⟨(getLatestAlbum_first_item sampleTransport "A" samplePage sampleAlbum []
      rfl).2.2.2.2 rfl,
   (getLatestAlbum_first_item emptyPageTransport "B" ⟨[], 1, none, 0, none, 0, ""⟩
      sampleAlbum [] rfl).2.2.2.1 rfl⟩

theorem chunk_subset (c : Nat) :
    ∀ (m : Nat) (l : List α), l.length ≤ m →
      ∀ ck ∈ chunk l c, ∀ x ∈ ck, x ∈ l := by
  intro m
  induction m with
  | zero =>
    intro l hl ck hck
    have hnil : l = [] := by
      cases l with
      | nil => rfl
      | cons y ys => exact absurd hl (by simp)
    subst hnil
    rw [chunk_nil] at hck
    cases hck
  | succ m ih =>
    intro l hl ck hck x hx
    by_cases hle : l = []
    · subst hle
      rw [chunk_nil] at hck
      cases hck
    · by_cases hc0 : c = 0
      · subst hc0
        rw [chunk_zero] at hck
        cases hck
      · rw [chunk_eq_cons hle hc0] at hck
        rcases List.mem_cons.mp hck with h | h
        · subst h
          exact List.take_subset c l hx
        · refine List.drop_subset c l ?_
          refine ih (l.drop c) ?_ ck h x hx
          have h3 : 0 < l.length := List.length_pos.mpr hle
          simp only [List.length_drop]
          omega

theorem chunk_example_artists : chunk [artistA, artistB] 1 = [[artistA], [artistB]] := by
  simp [chunk_eq_cons, chunk_nil]

theorem chunkRequestsWrites_example :
    chunkRequestsWrites [artistA, artistB] (albumWriteOp albumOpW) 1
      = ([("A", none)], some ⟨"boom", none⟩) := by
  rw [chunkRequestsWrites, chunk_example_artists]
  decide

/-- C8: the orchestrating run writes its output exactly once whatever
happens: when the artist-fetch stage fails, the error propagates only after
a single write of the (still empty) accumulated data; when the artist-fetch
stage succeeded, the single write contains the full artist list together
with the album-dictionary entries accumulated up to the failure point —
every such entry the result of a latest-album fetch that actually
resolved — and the first rejection, if any, propagates unchanged after the
write. -/
theorem main_partial_output_guarantee
    (albumOp : String → Nat → Except JsError (Option SimplifiedAlbumObject))
    (c : Nat) (e : JsError) (artists : List ArtistObject)
    (w : String × Option SimplifiedAlbumObject)
    (hw : w ∈ (chunkRequestsWrites artists (albumWriteOp albumOp) c).1) :
    (mainTryFinally (.error e) albumOp c).1.length = 1
    ∧ mainTryFinally (.error e) albumOp c = ([⟨[], []⟩], some e)
    ∧ (mainTryFinally (.ok artists) albumOp c).1.length = 1
    ∧ (mainTryFinally (.ok artists) albumOp c).1
        = [⟨artists, (chunkRequestsWrites artists (albumWriteOp albumOp) c).1⟩]
    ∧ (mainTryFinally (.ok artists) albumOp c).2
        = (chunkRequestsWrites artists (albumWriteOp albumOp) c).2
    ∧ ∃ a n, a ∈ artists ∧ albumOp a.id n = .ok w.2 ∧ w.1 = a.id := by
  refine ⟨rfl, rfl, rfl, rfl, rfl, ?_⟩
  rcases runChunksWrites_sound (albumWriteOp albumOp) c (chunk artists c) 0 w hw
    with ⟨x, n, hop, ck, hck, hx⟩
  have hxa : x ∈ artists := chunk_subset c artists.length artists le_rfl ck hck x hx
  rw [albumWriteOp] at hop
  cases halb : albumOp x.id n with
  | error er =>
    rw [halb] at hop
    simp only [Except.map] at hop
    cases hop
  | ok alb =>
    rw [halb] at hop
    simp only [Except.map, Except.ok.injEq] at hop
    refine ⟨x, n, hxa, ?_, ?_⟩
    · rw [halb, ← hop]
    · rw [← hop]

theorem main_partial_output_guarantee_witness :
    (mainTryFinally (.error errW) albumOpW 1).1.length = 1
    ∧ mainTryFinally (.error errW) albumOpW 1 = ([⟨[], []⟩], some errW)
    ∧ (mainTryFinally (.ok [artistA, artistB]) albumOpW 1).1.length = 1
    ∧ (mainTryFinally (.ok [artistA, artistB]) albumOpW 1).1
        = [⟨[artistA, artistB],
            (chunkRequestsWrites [artistA, artistB] (albumWriteOp albumOpW) 1).1⟩]
    ∧ (mainTryFinally (.ok [artistA, artistB]) albumOpW 1).2
        = (chunkRequestsWrites [artistA, artistB] (albumWriteOp albumOpW) 1).2
    ∧ ∃ a n, a ∈ [artistA, artistB]
        ∧ albumOpW a.id n = .ok (("A", none) : String × Option SimplifiedAlbumObject).2
        ∧ (("A", none) : String × Option SimplifiedAlbumObject).1 = a.id :=
  main_partial_output_guarantee albumOpW 1 errW [artistA, artistB] ("A", none)
    (by
      rw [chunkRequestsWrites_example]
      simp)

end FetchArtistData
